import Mathlib

/-!
Verification of the exercise-conversion script (`convert_exercises.py`).

The script is a one-shot batch transformation: it scans exercise
directories, normalizes each into a record (id, title, description,
solution, test cases), and serializes the sorted records into one
JavaScript data file.  Below, the relevant Python functions are embedded
shallowly: strings become `List Char`, dynamic YAML/JSON values become an
inductive `Yaml` type, fallible Python code (code that can raise) returns
`Except Unit`, and the per-directory try/except of the batch loop becomes
explicit `Except` bookkeeping.  Case mapping (`str.lower`) is modelled at
ASCII fidelity via `Char.toLower`; Unicode special case foldings are
outside the model.
-/

/-- The backslash character, kept as a named constant. -/
def backslashCh : Char := Char.ofNat 92

/-- The backtick character, kept as a named constant. -/
def backtickCh : Char := Char.ofNat 96

/-- The dollar character, kept as a named constant. -/
def dollarCh : Char := Char.ofNat 36

/-- The opening-brace character, kept as a named constant. -/
def braceCh : Char := Char.ofNat 123

/-- Membership in the regex character class `[a-z0-9]` of
`re.sub(r'[^a-z0-9]+', '-', ...)` (code points 97-122 and 48-57). -/
def isIdChar (c : Char) : Bool :=
  (97 ≤ c.toNat && c.toNat ≤ 122) || (48 ≤ c.toNat && c.toNat ≤ 57)

/-- ASCII-alphanumeric test on the source directory name (`[a-zA-Z0-9]`),
used to state the invariant claims about the derived id. -/
def isSrcAlnum (c : Char) : Bool :=
  isIdChar c || (65 ≤ c.toNat && c.toNat ≤ 90)

/-- Single left-to-right pass realizing `re.sub(r'[^a-z0-9]+', '-', s)`:
the flag records whether the previous character was part of a
non-matching run (so the run contributes only one dash). -/
def subDashAux : Bool → List Char → List Char
  | _, [] => []
  | prevDash, c :: rest =>
    if isIdChar c then c :: subDashAux false rest
    else if prevDash then subDashAux true rest
    else '-' :: subDashAux true rest

/-- The regex substitution `re.sub(r'[^a-z0-9]+', '-', s)` from
`folder_name_to_id` (line 26). -/
def subDash (s : List Char) : List Char := subDashAux false s

/-- Python `str.strip('-')`: remove leading and trailing dashes. -/
def stripDash (s : List Char) : List Char :=
  ((s.dropWhile (fun c => c = '-')).reverse.dropWhile (fun c => c = '-')).reverse

/-- Lines 24-26: `re.sub(r'[^a-z0-9]+', '-', folder_name.lower()).strip('-')`.
`str.lower` is modelled by the ASCII case mapping `Char.toLower`. -/
def folder_name_to_id (s : List Char) : List Char :=
  stripDash (subDash (s.map Char.toLower))

/-- Run-rewriting description used by the specification: each maximal run
of characters outside the class is replaced by one dash, followed by the
claim's strip of leading/trailing separators (`specId`).  Stated from the
spec sentence, to be compared with the scanning implementation. -/
def specCollapse : List Char → List Char
  | [] => []
  | c :: rest =>
    if isIdChar c then c :: specCollapse rest
    else '-' :: specCollapse (rest.dropWhile (fun d => !isIdChar d))
termination_by s => s.length
decreasing_by
  · simp only [List.length_cons]; omega
  · simp only [List.length_cons]
    exact Nat.lt_succ_of_le (List.dropWhile_sublist _).length_le

/-- Spec-side id derivation: lowercase, replace every maximal
non-alphanumeric run by a single separator, strip leading and trailing
separators (using the library's `dropWhile`/`rdropWhile` for the strip). -/
def specId (s : List Char) : List Char :=
  ((specCollapse (s.map Char.toLower)).dropWhile (fun c => c = '-')).rdropWhile
    (fun c => c = '-')

/-- Line 21, first substitution: `markdown_content.replace('\\', '\\\\')`
(every backslash doubled). -/
def pyReplaceBackslash : List Char → List Char
  | [] => []
  | c :: rest =>
    if c = backslashCh then backslashCh :: backslashCh :: pyReplaceBackslash rest
    else c :: pyReplaceBackslash rest

/-- Line 21, second substitution: `.replace('`', '\\`')` (every backtick
preceded by a backslash). -/
def pyReplaceBacktick : List Char → List Char
  | [] => []
  | c :: rest =>
    if c = backtickCh then backslashCh :: backtickCh :: pyReplaceBacktick rest
    else c :: pyReplaceBacktick rest

/-- Line 21, third substitution: `.replace('${', '\\${')` — the
left-to-right, non-overlapping replacement of the two-character pattern. -/
def pyReplaceDollarBrace : List Char → List Char
  | [] => []
  | [c] => [c]
  | c :: d :: rest =>
    if c = dollarCh ∧ d = braceCh then
      backslashCh :: dollarCh :: braceCh :: pyReplaceDollarBrace rest
    else c :: pyReplaceDollarBrace (d :: rest)

/-- Lines 18-22: `convert_markdown_to_js_string` — escape backslashes
first, then backticks, then the interpolation opener. -/
def convert_markdown_to_js_string (s : List Char) : List Char :=
  pyReplaceDollarBrace (pyReplaceBacktick (pyReplaceBackslash s))

/-- Modelled from the spec: the value of a single-character escape
sequence inside a JavaScript template literal (the escapes the emitter
can produce are backslash, backtick and dollar, which map to
themselves; the usual control-character escapes are included for
faithfulness; hex/unicode escapes never arise from the emitter). -/
def unescapeChar (c : Char) : Char :=
  if c = 'n' then '\n'
  else if c = 't' then '\t'
  else if c = 'r' then '\r'
  else if c = 'b' then Char.ofNat 8
  else if c = 'f' then Char.ofNat 12
  else if c = 'v' then Char.ofNat 11
  else if c = '0' then Char.ofNat 0
  else c

/-- Modelled from the spec: reinterpreting text between backtick
delimiters as a template literal.  A backslash escapes the next
character; an unescaped backtick would terminate the literal early and
an unescaped interpolation opener would start an interpolation, so both
make the text not decode to itself (`none`), as does a dangling final
backslash. -/
def templateDecode : List Char → Option (List Char)
  | [] => some []
  | [c] =>
    if c = backslashCh ∨ c = backtickCh then none else some [c]
  | c :: d :: rest =>
    if c = backslashCh then (templateDecode rest).map (fun t => unescapeChar d :: t)
    else if c = backtickCh then none
    else if c = dollarCh ∧ d = braceCh then none
    else (templateDecode (d :: rest)).map (fun t => c :: t)

/-- Python whitespace for `str.strip()`: space, tab, newline, carriage
return, vertical tab, form feed (ASCII fragment). -/
def isPyWs (c : Char) : Bool :=
  c = ' ' || c = '\t' || c = '\n' || c = '\r' || c = Char.ofNat 11 || c = Char.ofNat 12

/-- Python `str.strip()`: remove leading and trailing whitespace. -/
def pyStrip (s : List Char) : List Char :=
  ((s.dropWhile isPyWs).reverse.dropWhile isPyWs).reverse

/-- Python `str.split('\n')`: split at every newline, keeping empty
pieces; on the empty string the result is one empty piece. -/
def splitNl : List Char → List (List Char)
  | [] => [[]]
  | c :: rest =>
    if c = '\n' then [] :: splitNl rest
    else
      match splitNl rest with
      | h :: t => (c :: h) :: t
      | [] => [[c]]

/-- Dynamic YAML/JSON values as the loader sees them (`yaml.safe_load` /
`json.load`).  Mappings are association lists looked up by first match;
numeric values are modelled by integers. -/
inductive Yaml where
  | nil : Yaml
  | bool : Bool → Yaml
  | int : Int → Yaml
  | str : List Char → Yaml
  | list : List Yaml → Yaml
  | map : List (List Char × Yaml) → Yaml

/-- Python truthiness of a dynamic value (`None`, `False`, `0`, empty
string/list/dict are falsy). -/
def Yaml.truthy : Yaml → Bool
  | .nil => false
  | .bool b => b
  | .int n => n ≠ 0
  | .str s => !s.isEmpty
  | .list l => !l.isEmpty
  | .map m => !m.isEmpty

/-- Test for `isinstance(x, list)`. -/
def Yaml.isList : Yaml → Bool
  | .list _ => true
  | _ => false

/-- Underlying element list of a list value (else empty). -/
def Yaml.getList : Yaml → List Yaml
  | .list l => l
  | _ => []

/-- Key of the `stdin` field of a suite test case. -/
def stdinK : List Char := "stdin".toList

/-- Key of the `arguments` field of a suite test case. -/
def argumentsK : List Char := "arguments".toList

/-- Key of the `stdout` field of a suite test case. -/
def stdoutK : List Char := "stdout".toList

/-- Key of the `exit_code` field of a suite test case. -/
def exitCodeK : List Char := "exit_code".toList

/-- Key of the `testcases` list inside a suite tab. -/
def testcasesK : List Char := "testcases".toList

/-- Key `expectedOutput` of the emitted test-case literal. -/
def expectedOutputK : List Char := "expectedOutput".toList

/-- Key `expectedExitCode` of the emitted test-case literal. -/
def expectedExitCodeK : List Char := "expectedExitCode".toList

/-- Key `input` of the emitted test-case literal. -/
def inputK : List Char := "input".toList

/-- One normalized test case (lines 69-74).  The `arguments`,
`expectedOutput` and `expectedExitCode` fields stay dynamic, as in the
Python dict; `input` is the list of derived input lines. -/
structure TestCase where
  arguments : Yaml
  expectedOutput : Yaml
  expectedExitCode : Yaml
  input : List (List Char)

/-- Lines 65-67: `input_lines = []`, then if the `stdin` key is present
and its value truthy, `input_lines = test_case['stdin'].strip().split('\n')`
(calling `.strip()` on a non-string raises, modelled by `.error`). -/
def inputFromStdin : Option Yaml → Except Unit (List (List Char))
  | none => .ok []
  | some v =>
    if v.truthy then
      match v with
      | .str s => .ok (splitNl (pyStrip s))
      | _ => .error ()
    else .ok []

/-- Lines 64-74: build one test-case record from a suite entry.  The
entry must be a mapping; on any other shape Python raises while testing
`'stdin' in test_case` or calling `.get`, modelled by `.error`. -/
def extractTestCase : Yaml → Except Unit TestCase
  | .map m => do
    let inputLines ← inputFromStdin (m.lookup stdinK)
    .ok { arguments := (m.lookup argumentsK).getD (.list [])
          expectedOutput := (m.lookup stdoutK).getD (.str [])
          expectedExitCode := (m.lookup exitCodeK).getD (.int 0)
          input := inputLines }
  | _ => .error ()

/-- Substring test, for Python `in` applied to a string. -/
def containsSub (pat : List Char) : List Char → Bool
  | [] => pat.isPrefixOf []
  | c :: rest => pat.isPrefixOf (c :: rest) || containsSub pat rest

/-- Lines 62-74 for one tab: if `'testcases' in tab` then iterate
`tab['testcases']`.  A mapping tab iterates the value (a list iterates
its entries; a string iterates one-character strings; a dict iterates
its keys; anything else raises).  A string tab answers the membership
test by substring and then raises on indexing; a list tab answers by
element equality and then raises on indexing; other shapes raise on the
membership test itself. -/
def extractTab : Yaml → Except Unit (List TestCase)
  | .map m =>
    if m.any (fun p => p.1 == testcasesK) then
      match m.lookup testcasesK with
      | some (.list tcs) => tcs.mapM extractTestCase
      | some (.str s) => s.mapM (fun c => extractTestCase (.str [c]))
      | some (.map mm) => mm.mapM (fun p => extractTestCase (.str p.1))
      | _ => .error ()
    else .ok []
  | .str s => if containsSub testcasesK s then .error () else .ok []
  | .list l =>
    if l.any (fun e => match e with | .str s => s == testcasesK | _ => false) then
      .error ()
    else .ok []
  | _ => .error ()

/-- Line 61: the loop over the tabs of the suite document, appending the
extracted test cases in order. -/
def extractTabs : List Yaml → Except Unit (List TestCase)
  | [] => .ok []
  | tab :: rest => do
    let tcs ← extractTab tab
    let more ← extractTabs rest
    .ok (tcs ++ more)

/-- State of `evaluation/suite.yaml` for one exercise: the file may be
absent, present but rejected by `yaml.safe_load`, or parsed to a value. -/
inductive SuiteSrc where
  | absent : SuiteSrc
  | unparseable : SuiteSrc
  | parsed : Yaml → SuiteSrc

/-- Line 76: the warning text printed for an unparseable suite,
identifying the exercise by folder name (the trailing exception text is
not modelled). -/
def warningFor (folder : List Char) : List Char :=
  "Warning: Could not parse YAML for ".toList ++ folder

/-- Lines 53-76: the test cases and warnings produced for one exercise's
suite.  A missing file and an unparseable file both yield no test cases,
the latter with a warning; a parsed document is walked only when it is a
truthy list (line 60). -/
def suiteResult (folder : List Char) :
    SuiteSrc → Except Unit (List TestCase × List (List Char))
  | .absent => .ok ([], [])
  | .unparseable => .ok ([], [warningFor folder])
  | .parsed v =>
    if v.truthy && v.isList then
      (extractTabs v.getList).map (fun tcs => (tcs, []))
    else .ok ([], [])

/-- Python `x.get(key, default)`: defaulting lookup on a mapping,
raising (AttributeError) on any non-mapping receiver. -/
def pyGet (v : Yaml) (k : List Char) (dflt : Yaml) : Except Unit Yaml :=
  match v with
  | .map m => .ok ((m.lookup k).getD dflt)
  | _ => .error ()

/-- Line 41: `config.get('description', {}).get('names', {}).get('en',
folder_name)`.  The model requires the final value to be a string (a
non-string title would only fail later in Python, at sorting or
serialization; that deferral is outside the model). -/
def getTitle (config : Yaml) (folder : List Char) : Except Unit (List Char) := do
  let d ← pyGet config "description".toList (.map [])
  let names ← pyGet d "names".toList (.map [])
  let enV ← pyGet names "en".toList (.str folder)
  match enV with
  | .str t => .ok t
  | _ => .error ()

/-- One normalized exercise record (lines 78-84). -/
structure Exercise where
  id : List Char
  title : List Char
  description : List Char
  solution : List Char
  testCases : List TestCase

/-- Lines 28-84: `convert_exercise` for one directory.  The directory
name, the parsed `config.json` (a missing file is the empty mapping, by
lines 35-38), and the two `read_file_safe` results are inputs; the
second component collects the warnings printed on the way. -/
def convert_exercise (folder : List Char) (config : Yaml)
    (description solution : List Char) (suite : SuiteSrc) :
    Except Unit (Exercise × List (List Char)) := do
  let title ← getTitle config folder
  let (tcs, warns) ← suiteResult folder suite
  .ok ({ id := folder_name_to_id folder
         title := title
         description := description
         solution := solution
         testCases := tcs }, warns)

/-- Line 99: the error line printed when converting one directory raises
(the message names the directory). -/
def errorLine (dir msg : List Char) : List Char :=
  "Error converting ".toList ++ dir ++ ": ".toList ++ msg

/-- Lines 91-99: the batch loop.  Each candidate directory comes with
the outcome of `convert_exercise` on it (`.error` when the conversion
raised); successful records are collected in order and every failure is
caught, logged, and skipped. -/
def processDirs :
    List (List Char × Except (List Char) Exercise) →
      List Exercise × List (List Char)
  | [] => ([], [])
  | (_, .ok e) :: rest =>
    ((processDirs rest).1.cons e, (processDirs rest).2)
  | (dir, .error msg) :: rest =>
    ((processDirs rest).1, (processDirs rest).2.cons (errorLine dir msg))

/-- Lines 115-125: the keys emitted for one test-case literal —
`arguments`, `expectedOutput`, `expectedExitCode` always, and `input`
only when `test_case.get('input')` is truthy (line 122). -/
def emittedTestCaseKeys (tc : TestCase) : List (List Char) :=
  [argumentsK, expectedOutputK, expectedExitCodeK] ++
    (if tc.input.isEmpty then [] else [inputK])

/-- Line 151: `'input' in tc` on a test-case dict built by
`convert_exercise` — the dict literal of lines 69-74 always carries
exactly the four keys, so this tests membership in that fixed key set. -/
def tcHasInputKey (_tc : TestCase) : Bool :=
  [argumentsK, expectedOutputK, expectedExitCodeK, inputK].any
    (fun k => k == inputK)

/-- Lines 151-152: whether the final summary line for an exercise gets
the `" (with input)"` marker. -/
def summaryHasInput (tcs : List TestCase) : Bool :=
  tcs.any tcHasInputKey

/-- Lexicographic comparison of strings by code point — the ordering
Python's default string comparison uses for `sort(key=...)`. -/
def lexLe : List Char → List Char → Bool
  | [], _ => true
  | _ :: _, [] => false
  | a :: as, b :: bs =>
    if a < b then true else if b < a then false else lexLe as bs

/-- Stable insertion of a record into a title-sorted list: the new
record goes before the first record whose title is not smaller. -/
def insertByTitle (x : Exercise) : List Exercise → List Exercise
  | [] => [x]
  | y :: ys =>
    if lexLe x.title y.title then x :: y :: ys else y :: insertByTitle x ys

/-- Line 102: `exercises.sort(key=lambda x: x['title'])` — a stable sort
by title, modelled by insertion sort (any stable sort computes the same
list). -/
def sortByTitle : List Exercise → List Exercise
  | [] => []
  | x :: xs => insertByTitle x (sortByTitle xs)

/-- Value of `Char.ofNat` at a valid code point. -/
theorem charToNat_ofNat {n : Nat} (h : n.isValidChar) : (Char.ofNat n).toNat = n := by
  simp [Char.ofNat, dif_pos h, Char.ofNatAux, Char.toNat, UInt32.toNat]

/-- Lowercasing maps membership in `[a-zA-Z0-9]` onto membership in
`[a-z0-9]`. -/
theorem isIdChar_toLower (c : Char) : isIdChar (Char.toLower c) = isSrcAlnum c := by
  by_cases h : 65 ≤ c.toNat ∧ c.toNat ≤ 90
  · have hl : Char.toLower c = Char.ofNat (c.toNat + 32) := by
      unfold Char.toLower
      exact if_pos h
    have ht : (Char.ofNat (c.toNat + 32)).toNat = c.toNat + 32 :=
      charToNat_ofNat (Or.inl (by omega))
    rw [hl, Bool.eq_iff_iff]
    simp only [isIdChar, isSrcAlnum, ht, Bool.or_eq_true,
      Bool.and_eq_true, decide_eq_true_eq]
    omega
  · have hl : Char.toLower c = c := by
      unfold Char.toLower
      exact if_neg h
    rw [hl, Bool.eq_iff_iff]
    simp only [isIdChar, isSrcAlnum, Bool.or_eq_true,
      Bool.and_eq_true, decide_eq_true_eq]
    omega

/-- Inside a pending non-matching run, the scanner behaves as if the run
had already been skipped. -/
theorem subDashAux_true (t : List Char) :
    subDashAux true t = subDashAux false (t.dropWhile (fun d => !isIdChar d)) := by
  induction t with
  | nil => rfl
  | cons d r ih =>
    by_cases h : isIdChar d
    · simp [subDashAux, h, List.dropWhile_cons]
    · simp [subDashAux, h, List.dropWhile_cons, ih]

/-- The scanning substitution agrees with the run-rewriting description. -/
theorem subDash_eq_specCollapse_aux :
    ∀ (n : Nat) (t : List Char), t.length ≤ n → subDash t = specCollapse t := by
  intro n
  induction n with
  | zero =>
    intro t ht
    have : t = [] := List.length_eq_zero.mp (Nat.le_zero.mp ht)
    subst this
    simp [subDash, subDashAux, specCollapse]
  | succ n ih =>
    intro t ht
    match t with
    | [] => simp [subDash, subDashAux, specCollapse]
    | c :: rest =>
      by_cases h : isIdChar c
      · have ihr := ih rest (by simp only [List.length_cons] at ht; omega)
        simp only [subDash, subDashAux, h, if_true] at ihr ⊢
        rw [specCollapse, if_pos h, ihr]
      · have ihr := ih (rest.dropWhile (fun d => !isIdChar d))
          (by
            have := (List.dropWhile_sublist (l := rest)
              (p := fun d => !isIdChar d)).length_le
            simp only [List.length_cons] at ht; omega)
        simp only [subDash] at ihr ⊢
        rw [specCollapse, if_neg h]
        simp only [subDashAux, h, if_false, Bool.false_eq_true, ite_false]
        rw [subDashAux_true, ihr]

/-- The scanning substitution agrees with the run-rewriting description. -/
theorem subDash_eq_specCollapse (t : List Char) : subDash t = specCollapse t :=
  subDash_eq_specCollapse_aux t.length t (Nat.le_refl _)

/-- C1: for every directory name, the derived exercise id equals the name
lowercased with every maximal run of non-alphanumeric characters replaced
by a single dash and leading/trailing dashes stripped; in particular
"My Exercise #1" maps to "my-exercise-1". -/
theorem folder_name_to_id_matches_spec :
    (∀ s : List Char, folder_name_to_id s = specId s) ∧
      folder_name_to_id "My Exercise #1".toList = "my-exercise-1".toList := by
  refine ⟨fun s => ?_, by decide⟩
  unfold folder_name_to_id specId
  rw [subDash_eq_specCollapse]
  rfl

/-- The substitution output has a non-dash character exactly when the
input has a character of the class (class characters are kept, all
others become dashes). -/
theorem any_subDashAux (t : List Char) (b : Bool) :
    (subDashAux b t).any (fun c => !(c == '-')) = t.any isIdChar := by
  induction t generalizing b with
  | nil => rfl
  | cons d r ih =>
    by_cases h : isIdChar d
    · have hne : d ≠ '-' := by
        intro e; rw [e] at h; exact absurd h (by decide)
      have hd : (d == '-') = false := beq_eq_false_iff_ne.mpr hne
      simp [subDashAux, h, List.any_cons, hd]
    · cases b
      · simp [subDashAux, h, List.any_cons, ih]
      · simp [subDashAux, h, List.any_cons, ih]

/-- A predicate holding on the suffix left by `dropWhile` holds on the
whole list (the dropped prefix satisfies it by construction). -/
theorem forall_mem_dropWhile_iff {p : Char → Bool} (l : List Char) :
    (∀ x ∈ l.dropWhile p, p x) ↔ ∀ x ∈ l, p x := by
  constructor
  · intro h x hx
    rw [← List.takeWhile_append_dropWhile (p := p) (l := l)] at hx
    rcases List.mem_append.mp hx with h1 | h2
    · exact List.mem_takeWhile_imp h1
    · exact h x h2
  · intro h x hx
    exact h x ((List.dropWhile_sublist p).subset hx)

/-- Stripping dashes yields the empty string exactly when the input is
all dashes. -/
theorem stripDash_eq_nil_iff (l : List Char) :
    stripDash l = [] ↔ ∀ c ∈ l, c = '-' := by
  unfold stripDash
  rw [List.reverse_eq_nil_iff, List.dropWhile_eq_nil_iff]
  constructor
  · intro hall c hc
    have := (forall_mem_dropWhile_iff (p := fun c => c = '-') l).mp
      (fun x hx => by simpa using hall x (List.mem_reverse.mpr hx))
    simpa using this c hc
  · intro hall x hx
    have hx' : x ∈ l := (List.dropWhile_sublist _).subset (List.mem_reverse.mp hx)
    simpa using hall x hx'

/-- C8: the derived id is a non-empty string exactly when the source
directory name contains at least one (ASCII) alphanumeric character. -/
theorem folder_name_to_id_nonempty_iff (s : List Char) :
    folder_name_to_id s ≠ [] ↔ ∃ c ∈ s, isSrcAlnum c := by
  unfold folder_name_to_id
  rw [Ne, stripDash_eq_nil_iff]
  push_neg
  constructor
  · rintro ⟨c, hc, hne⟩
    have hany : (List.map Char.toLower s).any isIdChar = true := by
      rw [← any_subDashAux _ false]
      exact List.any_eq_true.mpr ⟨c, hc, by simpa using hne⟩
    rcases List.any_eq_true.mp hany with ⟨x, hx, hid⟩
    rcases List.mem_map.mp hx with ⟨a, ha, rfl⟩
    exact ⟨a, ha, by rw [← isIdChar_toLower]; exact hid⟩
  · rintro ⟨a, ha, hal⟩
    have hid : isIdChar (Char.toLower a) = true := by
      rw [isIdChar_toLower]; exact hal
    have hany : (List.map Char.toLower s).any isIdChar = true :=
      List.any_eq_true.mpr ⟨Char.toLower a, List.mem_map_of_mem _ ha, hid⟩
    rw [← any_subDashAux _ false] at hany
    rcases List.any_eq_true.mp hany with ⟨c, hc, hne⟩
    exact ⟨c, hc, by simpa using hne⟩

/-- Fusion of the first two substitutions into one scan: backslashes are
doubled and backticks get a backslash (the first substitution introduces
no backticks, so the passes commute into one). -/
def esc12 : List Char → List Char
  | [] => []
  | c :: rest =>
    if c = backslashCh then backslashCh :: backslashCh :: esc12 rest
    else if c = backtickCh then backslashCh :: backtickCh :: esc12 rest
    else c :: esc12 rest

/-- The composition of the first two replacement passes equals the fused
scan. -/
theorem esc12_eq (s : List Char) :
    pyReplaceBacktick (pyReplaceBackslash s) = esc12 s := by
  induction s with
  | nil => rfl
  | cons c rest ih =>
    by_cases hb : c = backslashCh
    · subst hb
      simp [pyReplaceBackslash, pyReplaceBacktick, esc12, ih,
        show ¬backslashCh = backtickCh by decide]
    · by_cases ht : c = backtickCh
      · subst ht
        simp [pyReplaceBackslash, pyReplaceBacktick, esc12, ih, hb]
      · simp [pyReplaceBackslash, pyReplaceBacktick, esc12, ih, hb, ht]

/-- The pattern replacement passes over a head character other than the
dollar sign. -/
theorem rdb_cons_ne (c : Char) (hc : ¬c = dollarCh) (X : List Char) :
    pyReplaceDollarBrace (c :: X) = c :: pyReplaceDollarBrace X := by
  cases X with
  | nil => rfl
  | cons d r =>
    simp only [pyReplaceDollarBrace]
    rw [if_neg (fun h => hc h.1)]

/-- The pattern replacement passes over a dollar sign not followed by an
opening brace. -/
theorem rdb_cons_dollar (X : List Char) (hX : X.head? ≠ some braceCh) :
    pyReplaceDollarBrace (dollarCh :: X) = dollarCh :: pyReplaceDollarBrace X := by
  cases X with
  | nil => rfl
  | cons d r =>
    have hd : ¬d = braceCh := by simpa using hX
    simp only [pyReplaceDollarBrace]
    rw [if_neg (fun h => hd h.2)]

/-- The fused escape never moves an opening brace to the front. -/
theorem head_esc12_ne_brace (t : List Char) (h : t.head? ≠ some braceCh) :
    (esc12 t).head? ≠ some braceCh := by
  cases t with
  | nil => simp [esc12]
  | cons c r =>
    by_cases hb : c = backslashCh
    · subst hb; simp [esc12]; decide
    · by_cases ht : c = backtickCh
      · subst ht; simp [esc12, hb]; decide
      · simpa [esc12, hb, ht] using h

/-- The pattern replacement never moves an opening brace to the front. -/
theorem head_rdb_ne_brace (X : List Char) (h : X.head? ≠ some braceCh) :
    (pyReplaceDollarBrace X).head? ≠ some braceCh := by
  cases X with
  | nil => simp [pyReplaceDollarBrace]
  | cons c r =>
    cases r with
    | nil => simpa [pyReplaceDollarBrace] using h
    | cons d r2 =>
      by_cases hcd : c = dollarCh ∧ d = braceCh
      · simp [pyReplaceDollarBrace, hcd]; decide
      · simpa [pyReplaceDollarBrace, hcd] using h

/-- The fused escape of a non-empty string is non-empty. -/
theorem esc12_eq_nil_iff (t : List Char) : esc12 t = [] ↔ t = [] := by
  cases t with
  | nil => simp [esc12]
  | cons c r =>
    simp only [esc12]
    constructor
    · intro h
      by_cases hb : c = backslashCh
      · rw [if_pos hb] at h; cases h
      · by_cases ht : c = backtickCh
        · rw [if_neg hb, if_pos ht] at h; cases h
        · rw [if_neg hb, if_neg ht] at h; cases h
    · intro h; cases h

/-- The pattern replacement of a non-empty string is non-empty. -/
theorem rdb_eq_nil_iff (X : List Char) :
    pyReplaceDollarBrace X = [] ↔ X = [] := by
  cases X with
  | nil => simp [pyReplaceDollarBrace]
  | cons c r =>
    cases r with
    | nil => simp [pyReplaceDollarBrace]
    | cons d r2 =>
      simp only [pyReplaceDollarBrace]
      constructor
      · intro h
        by_cases hcd : c = dollarCh ∧ d = braceCh
        · rw [if_pos hcd] at h; cases h
        · rw [if_neg hcd] at h; cases h
      · intro h; cases h

/-- Unfolding of the decoder on a one-character string. -/
theorem templateDecode_one (c : Char) :
    templateDecode [c] =
      if c = backslashCh ∨ c = backtickCh then none else some [c] := by
  simp only [templateDecode]

/-- Unfolding of the decoder on a string of two or more characters. -/
theorem templateDecode_cons₂ (c d : Char) (l : List Char) :
    templateDecode (c :: d :: l) =
      if c = backslashCh then
        (templateDecode l).map (fun t => unescapeChar d :: t)
      else if c = backtickCh then none
      else if c = dollarCh ∧ d = braceCh then none
      else (templateDecode (d :: l)).map (fun t => c :: t) := by
  simp only [templateDecode]

/-- Decoding the escaped text recovers the original, by strong induction
on the length. -/
theorem decode_esc12_aux :
    ∀ (n : Nat) (s : List Char), s.length ≤ n →
      templateDecode (pyReplaceDollarBrace (esc12 s)) = some s := by
  intro n
  induction n with
  | zero =>
    intro s hs
    have : s = [] := List.length_eq_zero.mp (Nat.le_zero.mp hs)
    subst this; rfl
  | succ n ih =>
    intro s hs
    match s with
    | [] => rfl
    | c :: rest =>
      have hlen : rest.length ≤ n := by
        simp only [List.length_cons] at hs; omega
      by_cases hb : c = backslashCh
      · subst hb
        have h1 : esc12 (backslashCh :: rest) =
            backslashCh :: backslashCh :: esc12 rest := by simp [esc12]
        rw [h1, rdb_cons_ne _ (by decide), rdb_cons_ne _ (by decide),
          templateDecode_cons₂, if_pos rfl, ih rest hlen]
        simp [show unescapeChar backslashCh = backslashCh by decide]
      · by_cases ht : c = backtickCh
        · subst ht
          have h1 : esc12 (backtickCh :: rest) =
              backslashCh :: backtickCh :: esc12 rest := by
            simp [esc12, show ¬backtickCh = backslashCh by decide]
          rw [h1, rdb_cons_ne _ (by decide), rdb_cons_ne _ (by decide),
            templateDecode_cons₂, if_pos rfl, ih rest hlen]
          simp [show unescapeChar backtickCh = backtickCh by decide]
        · by_cases hd : c = dollarCh
          · subst hd
            match rest with
            | [] => decide
            | e :: rest2 =>
              by_cases hbr : e = braceCh
              · subst hbr
                have hlen2 : rest2.length ≤ n := by
                  simp only [List.length_cons] at hs; omega
                have h1 : esc12 (dollarCh :: braceCh :: rest2) =
                    dollarCh :: braceCh :: esc12 rest2 := by
                  simp [esc12, show ¬dollarCh = backslashCh by decide,
                    show ¬dollarCh = backtickCh by decide,
                    show ¬braceCh = backslashCh by decide,
                    show ¬braceCh = backtickCh by decide]
                have h2 : pyReplaceDollarBrace
                    (dollarCh :: braceCh :: esc12 rest2) =
                    backslashCh :: dollarCh :: braceCh ::
                      pyReplaceDollarBrace (esc12 rest2) := by
                  simp [pyReplaceDollarBrace]
                rw [h1, h2]
                rcases hZ : pyReplaceDollarBrace (esc12 rest2) with _ | ⟨w, W⟩
                · have : rest2 = [] :=
                    (esc12_eq_nil_iff _).mp ((rdb_eq_nil_iff _).mp hZ)
                  subst this
                  decide
                · have hdec : templateDecode (w :: W) = some rest2 := by
                    rw [← hZ]; exact ih rest2 hlen2
                  rw [templateDecode_cons₂, if_pos rfl, templateDecode_cons₂,
                    if_neg (by decide), if_neg (by decide),
                    if_neg (fun h => absurd h.1 (by decide)), hdec]
                  simp [show unescapeChar dollarCh = dollarCh by decide]
              · have h1 : esc12 (dollarCh :: e :: rest2) =
                    dollarCh :: esc12 (e :: rest2) := by
                  simp [esc12, show ¬dollarCh = backslashCh by decide,
                    show ¬dollarCh = backtickCh by decide]
                have hhead : (esc12 (e :: rest2)).head? ≠ some braceCh := by
                  apply head_esc12_ne_brace
                  simpa using hbr
                rw [h1, rdb_cons_dollar _ hhead]
                rcases hZ : pyReplaceDollarBrace (esc12 (e :: rest2))
                  with _ | ⟨w, W⟩
                · exact absurd ((esc12_eq_nil_iff _).mp ((rdb_eq_nil_iff _).mp hZ))
                    (by simp)
                · have hw : ¬w = braceCh := by
                    have hh := head_rdb_ne_brace _ hhead
                    rw [hZ] at hh
                    simpa using hh
                  have hdec : templateDecode (w :: W) = some (e :: rest2) := by
                    rw [← hZ]; exact ih (e :: rest2) hlen
                  rw [templateDecode_cons₂, if_neg (by decide),
                    if_neg (by decide), if_neg (fun h => hw h.2), hdec]
                  rfl
          · have h1 : esc12 (c :: rest) = c :: esc12 rest := by
              simp [esc12, hb, ht]
            rw [h1, rdb_cons_ne _ hd]
            rcases hZ : pyReplaceDollarBrace (esc12 rest) with _ | ⟨w, W⟩
            · have : rest = [] :=
                (esc12_eq_nil_iff _).mp ((rdb_eq_nil_iff _).mp hZ)
              subst this
              rw [templateDecode_one, if_neg (fun h => h.elim hb ht)]
            · have hdec : templateDecode (w :: W) = some rest := by
                rw [← hZ]; exact ih rest hlen
              rw [templateDecode_cons₂, if_neg hb, if_neg ht,
                if_neg (fun h => hd h.1), hdec]
              rfl

/-- C2: escaping replaces backslashes first, then backticks, then the
interpolation opener, and reinterpreting the emitted text as a template
literal reproduces the original string exactly. -/
theorem convert_markdown_roundtrip (s : List Char) :
    templateDecode (convert_markdown_to_js_string s) = some s := by
  unfold convert_markdown_to_js_string
  rw [esc12_eq]
  exact decode_esc12_aux s.length s (Nat.le_refl _)

/-- The structural newline splitter agrees with the library splitter. -/
theorem splitNl_eq_splitOn (s : List Char) : splitNl s = s.splitOn '\n' := by
  induction s with
  | nil => rfl
  | cons c rest ih =>
    have hco : List.splitOn '\n' (c :: rest) =
        if c == '\n' then [] :: List.splitOn '\n' rest
        else (List.splitOn '\n' rest).modifyHead (List.cons c) := by
      simp [List.splitOn, List.splitOnP_cons]
    by_cases h : c = '\n'
    · subst h
      rw [hco, if_pos (by simp)]
      simp [splitNl, ih]
    · rw [hco, if_neg (by simp [h])]
      rcases hres : splitNl rest with _ | ⟨hh, tt⟩
      · exfalso
        have hne : List.splitOn '\n' rest ≠ [] := by
          simp only [List.splitOn]
          exact List.splitOnP_ne_nil _ _
        rw [← ih] at hne
        exact hne hres
      · rw [← ih, hres]
        simp [splitNl, h, hres]

/-- Trim of leading and trailing whitespace phrased with the library's
one-sided trims. -/
def trimWs (s : List Char) : List Char :=
  (s.dropWhile isPyWs).rdropWhile isPyWs

/-- Stated from the claim C3's words: the input lines are obtained from
the stdin text by trimming trailing whitespace and splitting on
newlines; an absent stdin, or one empty after trimming, gives the empty
sequence. -/
def claimInput : Option (List Char) → List (List Char)
  | none => []
  | some s =>
    if (s.reverse.dropWhile isPyWs).reverse = [] then []
    else ((s.reverse.dropWhile isPyWs).reverse).splitOn '\n'

/-- Amended description of the derivation: trim leading and trailing
whitespace, then split on newlines; the empty sequence arises only for
an absent or empty stdin string, while a non-empty all-whitespace stdin
yields the one-element sequence containing the empty line. -/
def amendedInput : Option (List Char) → List (List Char)
  | none => []
  | some s => if s = [] then [] else (trimWs s).splitOn '\n'

/-- C3 counterexample: for the stdin text " \na" the code strips the
leading space (Python `str.strip()` trims both ends) and produces the
single line "a", while the claim's trailing-only trim would keep the
leading space and produce the two lines " " and "a"; and for the
whitespace-only stdin " " the code produces the one-element sequence
containing the empty line, while the claim prescribes the empty
sequence. -/
theorem stdin_input_claim_counterexample :
    inputFromStdin (some (.str (' ' :: '\n' :: 'a' :: []))) =
        .ok (('a' :: []) :: []) ∧
      claimInput (some (' ' :: '\n' :: 'a' :: [])) =
        ((' ' :: []) :: ('a' :: []) :: []) ∧
      ((' ' :: []) :: ('a' :: []) :: [] : List (List Char)) ≠ ('a' :: []) :: [] ∧
      inputFromStdin (some (.str (' ' :: []))) = .ok ([] :: []) ∧
      claimInput (some (' ' :: [])) = [] ∧
      ([] :: [] : List (List Char)) ≠ [] := by
  refine ⟨rfl, rfl, by decide, rfl, rfl, by decide⟩

/-- C3 amended: the input lines equal the stdin text trimmed of leading
and trailing whitespace and split on newlines, with the empty sequence
exactly for an absent or empty stdin string; stdin "a\nb\n" yields the
two lines "a" and "b". -/
theorem stdin_input_amended :
    (∀ s : List Char,
        inputFromStdin (some (.str s)) = .ok (amendedInput (some s))) ∧
      inputFromStdin none = .ok (amendedInput none) ∧
      inputFromStdin (some (.str ('a' :: '\n' :: 'b' :: '\n' :: []))) =
        .ok (('a' :: []) :: ('b' :: []) :: []) := by
  refine ⟨fun s => ?_, rfl, rfl⟩
  by_cases h : s = []
  · subst h; rfl
  · have ht : Yaml.truthy (.str s) = true := by
      simp [Yaml.truthy, h]
    simp only [inputFromStdin, ht, if_true, amendedInput, if_neg h]
    rw [splitNl_eq_splitOn]
    rfl

/-- C4: the `input` key/value pair is emitted for a test case exactly
when its input sequence is non-empty, and a test case extracted from an
entry whose stdin field is absent or the empty string never receives the
key. -/
theorem input_key_emitted_iff (tc : TestCase)
    (m : List (List Char × Yaml))
    (hm : m.lookup stdinK = none ∨ m.lookup stdinK = some (.str []))
    (tc' : TestCase) (h' : extractTestCase (.map m) = .ok tc') :
    (inputK ∈ emittedTestCaseKeys tc ↔ tc.input ≠ []) ∧
      inputK ∉ emittedTestCaseKeys tc' := by
  have h3 : inputK ∉ [argumentsK, expectedOutputK, expectedExitCodeK] := by decide
  have hkeys : ∀ u : TestCase, u.input = [] → inputK ∉ emittedTestCaseKeys u := by
    intro u hu hmem
    simp only [emittedTestCaseKeys, hu] at hmem
    rcases List.mem_append.mp hmem with h | h
    · exact h3 h
    · simp at h
  constructor
  · constructor
    · intro hmem he
      exact hkeys tc he hmem
    · intro hne
      apply List.mem_append.mpr
      right
      have hie : tc.input.isEmpty = false := by
        rcases hi : tc.input with _ | _
        · exact absurd hi hne
        · rfl
      rw [hie]
      simp
  · apply hkeys
    have hin : inputFromStdin (m.lookup stdinK) = .ok [] := by
      rcases hm with hm | hm <;> rw [hm] <;> rfl
    simp only [extractTestCase, hin, Except.bind] at h'
    have := congrArg (fun r =>
      match r with
      | Except.ok u => u.input
      | Except.error _ => ([] : List (List Char))) h'
    simpa using this.symm

/-- Witness for C4 at concrete inputs: a test case with one input line
gets the key, and extraction from an entry without a stdin field yields
a test case without it. -/
theorem input_key_emitted_iff_witness :
    (inputK ∈ emittedTestCaseKeys ⟨.list [], .str [], .int 0, ('x' :: []) :: []⟩ ↔
        (⟨.list [], .str [], .int 0, ('x' :: []) :: []⟩ : TestCase).input ≠ []) ∧
      inputK ∉ emittedTestCaseKeys ⟨.list [], .str [], .int 0, []⟩ :=
  input_key_emitted_iff ⟨.list [], .str [], .int 0, ('x' :: []) :: []⟩ []
    (Or.inl rfl) ⟨.list [], .str [], .int 0, []⟩ rfl

/-- C6: for an exercise whose suite file exists but does not parse, the
conversion result is the same record it would build with no test cases,
plus one warning whose text ends in the folder name; in particular the
exercise is still converted (with empty `testCases`) whenever its title
extraction succeeds, as on the concrete instance in the last conjunct. -/
theorem unparseable_suite_recovers (folder : List Char) (config : Yaml)
    (description solution : List Char) :
    (convert_exercise folder config description solution .unparseable =
        (getTitle config folder).map
          (fun t =>
            ({ id := folder_name_to_id folder, title := t,
               description := description, solution := solution,
               testCases := [] }, [warningFor folder]))) ∧
      folder <:+ warningFor folder ∧
      convert_exercise ('e' :: 'x' :: []) (.map []) [] [] .unparseable =
        .ok ({ id := 'e' :: 'x' :: [], title := 'e' :: 'x' :: [],
               description := [], solution := [], testCases := [] },
          [warningFor ('e' :: 'x' :: [])]) := by
  refine ⟨?_, ⟨"Warning: Could not parse YAML for ".toList, rfl⟩, rfl⟩
  unfold convert_exercise
  rcases h : getTitle config folder with e | t
  · rfl
  · rfl

/-- C7: a directory whose conversion raised contributes no record (the
collected records are those of the remaining directories, which are all
still processed), and an error line carrying the directory name is
logged. -/
theorem batch_skips_failed_dir
    (xs ys : List (List Char × Except (List Char) Exercise))
    (dir msg : List Char) :
    (processDirs (xs ++ (dir, .error msg) :: ys)).1 =
        (processDirs (xs ++ ys)).1 ∧
      errorLine dir msg ∈ (processDirs (xs ++ (dir, .error msg) :: ys)).2 ∧
      dir <:+: errorLine dir msg := by
  refine ⟨?_, ?_, ⟨"Error converting ".toList, ": ".toList ++ msg,
    by simp [errorLine]⟩⟩
  · induction xs with
    | nil => simp [processDirs]
    | cons x xs ih =>
      rcases x with ⟨d, e⟩
      cases e with
      | ok v => simp [processDirs, ih]
      | error m2 => simp [processDirs, ih]
  · induction xs with
    | nil => simp [processDirs]
    | cons x xs ih =>
      rcases x with ⟨d, e⟩
      cases e with
      | ok v => simpa [processDirs] using ih
      | error m2 =>
        simp only [List.cons_append, processDirs]
        exact List.mem_cons_of_mem _ ih

/-- C9 (code bug evaluation): the summary test of line 151 looks for the
`input` key, which lines 69-74 always put into the test-case dict, so an
exercise whose single test case has no stdin still gets the
"(with input)" marker although every input sequence is empty. -/
theorem summary_marker_ignores_input_content :
    extractTestCase (.map []) = .ok ⟨.list [], .str [], .int 0, []⟩ ∧
      summaryHasInput [⟨.list [], .str [], .int 0, []⟩] = true ∧
      ([⟨.list [], .str [], .int 0, []⟩] : List TestCase).all
          (fun tc => tc.input.isEmpty) = true :=
  ⟨rfl, rfl, rfl⟩

/-- C10: a suite document that parses to a non-list value is skipped
silently — no test cases, no warning — and the exercise is still
converted exactly as it would be with an absent suite. -/
theorem nonlist_suite_silent (folder : List Char) (v : Yaml)
    (hv : v.isList = false) (config : Yaml)
    (description solution : List Char) :
    suiteResult folder (.parsed v) = .ok ([], []) ∧
      convert_exercise folder config description solution (.parsed v) =
        (getTitle config folder).map
          (fun t =>
            ({ id := folder_name_to_id folder, title := t,
               description := description, solution := solution,
               testCases := [] }, ([] : List (List Char)))) := by
  have h1 : suiteResult folder (.parsed v) = .ok ([], []) := by
    simp [suiteResult, hv]
  refine ⟨h1, ?_⟩
  unfold convert_exercise
  rcases h : getTitle config folder with e | t
  · rfl
  · rw [h1]; rfl

/-- Witness for C10 at a concrete input: a suite parsed to a mapping is
skipped with no test cases and no warning. -/
theorem nonlist_suite_silent_witness :
    suiteResult ('e' :: 'x' :: [])
        (.parsed (.map (((' ' :: []), Yaml.nil) :: []))) = .ok ([], []) :=
  (nonlist_suite_silent ('e' :: 'x' :: [])
    (.map (((' ' :: []), Yaml.nil) :: [])) rfl (.map []) [] []).1

/-- The lexicographic comparison is reflexive. -/
theorem lexLe_refl (s : List Char) : lexLe s s = true := by
  induction s with
  | nil => rfl
  | cons a as ih => simp [lexLe, lt_self_iff_false, ih]

/-- The lexicographic comparison is total. -/
theorem lexLe_total (a b : List Char) : lexLe a b = true ∨ lexLe b a = true := by
  induction a generalizing b with
  | nil => left; rfl
  | cons x xs ih =>
    cases b with
    | nil => right; rfl
    | cons y ys =>
      rcases lt_trichotomy x y with h | h | h
      · left; simp [lexLe, h]
      · subst h
        rcases ih ys with h2 | h2
        · left; simp [lexLe, lt_self_iff_false, h2]
        · right; simp [lexLe, lt_self_iff_false, h2]
      · right; simp [lexLe, h]

/-- The lexicographic comparison is transitive. -/
theorem lexLe_trans :
    ∀ (a b c : List Char), lexLe a b = true → lexLe b c = true →
      lexLe a c = true := by
  intro a
  induction a with
  | nil => intro b c _ _; rfl
  | cons x xs ih =>
    intro b c hab hbc
    cases b with
    | nil => simp [lexLe] at hab
    | cons y ys =>
      cases c with
      | nil => simp [lexLe] at hbc
      | cons z zs =>
        by_cases hxy : x < y
        · by_cases hyz : y < z
          · simp [lexLe, lt_trans hxy hyz]
          · by_cases hzy : z < y
            · simp [lexLe, hyz, hzy] at hbc
            · have he : y = z := le_antisymm (not_lt.mp hzy) (not_lt.mp hyz)
              subst he
              simp [lexLe, hxy]
        · by_cases hyx : y < x
          · simp [lexLe, hxy, hyx] at hab
          · have he : x = y := le_antisymm (not_lt.mp hyx) (not_lt.mp hxy)
            subst he
            simp only [lexLe, lt_self_iff_false, if_false] at hab
            by_cases hxz : x < z
            · simp [lexLe, hxz]
            · by_cases hzx : z < x
              · simp [lexLe, hxz, hzx] at hbc
              · have he2 : x = z := le_antisymm (not_lt.mp hzx) (not_lt.mp hxz)
                subst he2
                simp only [lexLe, lt_self_iff_false, if_false] at hbc ⊢
                exact ih ys zs hab hbc

/-- Membership in the stable insertion. -/
theorem mem_insertByTitle (x z : Exercise) (l : List Exercise) :
    z ∈ insertByTitle x l ↔ z = x ∨ z ∈ l := by
  induction l with
  | nil => simp [insertByTitle]
  | cons y ys ih =>
    by_cases h : lexLe x.title y.title
    · simp [insertByTitle, h]
    · simp only [insertByTitle, if_neg h, List.mem_cons, ih]
      tauto

/-- The stable insertion is a permutation of consing. -/
theorem insertByTitle_perm (x : Exercise) (l : List Exercise) :
    List.Perm (insertByTitle x l) (x :: l) := by
  induction l with
  | nil => exact List.Perm.refl _
  | cons y ys ih =>
    by_cases h : lexLe x.title y.title
    · simp only [insertByTitle, if_pos h]
      exact List.Perm.refl _
    · simp only [insertByTitle, if_neg h]
      exact (ih.cons y).trans (List.Perm.swap x y ys)

/-- The title sort permutes the records. -/
theorem sortByTitle_perm (l : List Exercise) : List.Perm (sortByTitle l) l := by
  induction l with
  | nil => exact List.Perm.refl _
  | cons x xs ih =>
    exact (insertByTitle_perm x (sortByTitle xs)).trans (ih.cons x)

/-- The stable insertion preserves sortedness by title. -/
theorem sorted_insertByTitle (x : Exercise) (l : List Exercise)
    (hl : l.Pairwise (fun a b => lexLe a.title b.title = true)) :
    (insertByTitle x l).Pairwise (fun a b => lexLe a.title b.title = true) := by
  induction l with
  | nil => simp [insertByTitle]
  | cons y ys ih =>
    rcases List.pairwise_cons.mp hl with ⟨hy, hys⟩
    by_cases h : lexLe x.title y.title
    · simp only [insertByTitle, if_pos h]
      apply List.pairwise_cons.mpr
      refine ⟨?_, hl⟩
      intro z hz
      rcases List.mem_cons.mp hz with rfl | hz2
      · exact h
      · exact lexLe_trans _ _ _ h (hy z hz2)
    · simp only [insertByTitle, if_neg h]
      apply List.pairwise_cons.mpr
      constructor
      · intro z hz
        rcases (mem_insertByTitle x z ys).mp hz with hzx | hz2
        · rw [hzx]
          rcases lexLe_total x.title y.title with h2 | h2
          · exact absurd h2 h
          · exact h2
        · exact hy z hz2
      · exact ih hys

/-- The title sort sorts by title. -/
theorem sorted_sortByTitle (l : List Exercise) :
    (sortByTitle l).Pairwise (fun a b => lexLe a.title b.title = true) := by
  induction l with
  | nil => simp [sortByTitle]
  | cons x xs ih => exact sorted_insertByTitle x (sortByTitle xs) ih

/-- Stability of the insertion: records of one fixed title are unchanged
unless the inserted record carries that title, in which case it goes
first. -/
theorem filter_insertByTitle (t : List Char) (x : Exercise) (l : List Exercise) :
    (insertByTitle x l).filter (fun e => e.title == t) =
      if x.title == t then x :: l.filter (fun e => e.title == t)
      else l.filter (fun e => e.title == t) := by
  induction l with
  | nil =>
    by_cases px : (x.title == t)
    · simp [insertByTitle, List.filter_cons, px]
    · simp [insertByTitle, List.filter_cons, px]
  | cons y ys ih =>
    by_cases h : lexLe x.title y.title
    · simp only [insertByTitle, if_pos h, List.filter_cons]
    · simp only [insertByTitle, if_neg h, List.filter_cons, ih]
      by_cases px : (x.title == t)
      · have pxe : x.title = t := beq_iff_eq.mp px
        have hyt : (y.title == t) = false := by
          apply beq_eq_false_iff_ne.mpr
          intro he
          apply h
          rw [pxe, he]
          exact lexLe_refl t
        simp [px, hyt]
      · simp [px]

/-- Stability of the sort: the records carrying one fixed title appear
in the sorted output in their original order. -/
theorem filter_sortByTitle (t : List Char) (l : List Exercise) :
    (sortByTitle l).filter (fun e => e.title == t) =
      l.filter (fun e => e.title == t) := by
  induction l with
  | nil => rfl
  | cons x xs ih =>
    show (insertByTitle x (sortByTitle xs)).filter _ = _
    rw [filter_insertByTitle]
    by_cases px : (x.title == t)
    · simp [List.filter_cons, px, ih]
    · simp [List.filter_cons, px, ih]

/-- C5: the emitted collection is the records sorted stably by title in
code-point order: the sort is a permutation, its output is pairwise
ordered by title, records of any equal title keep their scan order, and
the titles Zeta, Alpha, Mid come out as Alpha, Mid, Zeta. -/
theorem sortByTitle_spec :
    (∀ l : List Exercise, List.Perm (sortByTitle l) l) ∧
      (∀ l : List Exercise,
        (sortByTitle l).Pairwise (fun a b => lexLe a.title b.title = true)) ∧
      (∀ (l : List Exercise) (t : List Char),
        (sortByTitle l).filter (fun e => e.title == t) =
          l.filter (fun e => e.title == t)) ∧
      (sortByTitle
          [⟨[], "Zeta".toList, [], [], []⟩, ⟨[], "Alpha".toList, [], [], []⟩,
            ⟨[], "Mid".toList, [], [], []⟩]).map (fun e => e.title) =
        ["Alpha".toList, "Mid".toList, "Zeta".toList] :=
  ⟨sortByTitle_perm, sorted_sortByTitle, fun l t => filter_sortByTitle t l, by decide⟩
